import Mathlib

/-!
Shallow embedding of `src/maps_enhancer.py` (class `MapsEnhancer`).

Python strings are modelled as `List Char` (ASCII fragment: the source only
manipulates ASCII metacharacters; Python's Unicode-aware `\w`, `\s`, `lower()`
are modelled by their ASCII restrictions).  Python dicts with string keys are
association lists; `None` is `Option.none`; a raised-and-caught exception is
modelled with `Except`.  Every definition is translated line by line from the
source file and is executable.
-/

/-- Whitespace test for the ASCII whitespace characters recognised by Python's
`str.strip` / `str.split` and the regex class `\s`. -/
def isPySpace (c : Char) : Bool :=
  c = ' ' || c = '\t' || c = '\n' || c = '\r' || c = '\x0b' || c = '\x0c'

/-- Python `str.strip()`: drop whitespace from both ends. -/
def pyStrip (l : List Char) : List Char :=
  ((l.dropWhile isPySpace).reverse.dropWhile isPySpace).reverse

/-- ASCII restriction of the regex class `\w` (alphanumeric or underscore). -/
def isWordChar (c : Char) : Bool := c.isAlphanum || c = '_'

/-- Characters kept by the substitution `re.sub(r'[^\w\s-]', ' ', _)` in
`_clean_org_name`: word characters, whitespace and the hyphen. -/
def keepChar (c : Char) : Bool := isWordChar c || isPySpace c || c = '-'

/-- The substitution `re.sub(r'[^\w\s-]', ' ', org_name)` from
`_clean_org_name` line 59: every non-kept character becomes a space. -/
def stripSpecials (l : List Char) : List Char :=
  l.map (fun c => if keepChar c then c else ' ')

/-- Accumulator-based splitter behind `pyWords`; `acc` holds the current word
reversed. -/
def pyWordsAux : List Char → List Char → List (List Char)
  | [], acc => if acc = [] then [] else [acc.reverse]
  | c :: rest, acc =>
    if isPySpace c then
      if acc = [] then pyWordsAux rest [] else acc.reverse :: pyWordsAux rest []
    else pyWordsAux rest (c :: acc)

/-- Python `str.split()` with no argument: the whitespace-separated words of
the string, with no empty words. -/
def pyWords (l : List Char) : List (List Char) := pyWordsAux l []

/-- Model of `' '.join(ws)` for a list of words. -/
def joinWords : List (List Char) → List Char
  | [] => []
  | [w] => w
  | w :: w2 :: ws => w ++ ' ' :: joinWords (w2 :: ws)

/-- The line `org_name = ' '.join(org_name.split())` from `_clean_org_name`:
collapse whitespace runs to single spaces and trim the ends. -/
def collapseWs (l : List Char) : List Char := joinWords (pyWords l)

/-- ASCII `lower()` on one character, modelling `re.IGNORECASE` comparison. -/
def lowerAscii (c : Char) : Char :=
  if 'A' ≤ c && c ≤ 'Z' then Char.ofNat (c.toNat + 32) else c

/-- The alternatives of the suffix regex in `_clean_org_name` line 56, in
source order. -/
def suffixTokens : List (List Char) :=
  ["LLC", "Inc", "Corporation", "Corp", "Ltd", "Limited", "Co", "Company",
   "Group", "Holdings", "Services"].map String.toList

/-- Case-insensitive test that `t` matches the front of `s` character by
character. -/
def startsCI : List Char → List Char → Bool
  | [], _ => true
  | _ :: _, [] => false
  | a :: ts, b :: ss => lowerAscii a = lowerAscii b && startsCI ts ss

/-- Matcher for the regex fragment `\.?\s*$`: an optional period followed by
whitespace up to the end of the string. -/
def tailDotWs : List Char → Bool
  | [] => true
  | c :: r => if c = '.' then r.all isPySpace else (c :: r).all isPySpace

/-- Matcher for the whole anchored suffix pattern
`\s*(LLC|...|Services)\.?\s*$` at the current position: leading whitespace,
then one alternative (case-insensitive), then `\.?\s*$`.  Since every
alternative starts with a letter, the greedy `\s*` must consume exactly the
maximal whitespace run for a match to exist. -/
def matchesTail (s : List Char) : Bool :=
  suffixTokens.any (fun t =>
    startsCI t (s.dropWhile isPySpace) &&
    tailDotWs ((s.dropWhile isPySpace).drop t.length))

/-- The substitution `re.sub(suffixes, '', org_name, flags=re.IGNORECASE)`
from `_clean_org_name` lines 56-57.  The pattern is anchored at `$`, so a
match always extends to the end of the string and `re.sub` deletes the tail
from the leftmost matching position; positions are scanned left to right
exactly as the regex engine does. -/
def reSubSuffix : List Char → List Char
  | [] => []
  | c :: rest => if matchesTail (c :: rest) then [] else c :: reSubSuffix rest

/-- Embedding of `MapsEnhancer._clean_org_name` (lines 52-62): strip, remove
one trailing legal suffix, replace special characters by spaces, collapse
whitespace. -/
def clean_org_name (s : List Char) : List Char :=
  collapseWs (stripSpecials (reSubSuffix (pyStrip s)))

/-- Test that `p` occurs at the very front of `s` (Python `str.startswith`). -/
def startsL : List Char → List Char → Bool
  | _, [] => true
  | [], _ :: _ => false
  | c :: s, p :: ps => c = p && startsL s ps

/-- Embedding of `MapsEnhancer._get_domain` (lines 34-50): empty input gives
the empty domain; otherwise `http://` is prepended when no scheme is present,
the authority component (`urlparse(...).netloc`: the text after `//` up to the
first `/`, `?` or `#`) is lower-cased and a leading `www.` is dropped.  The
`except` branch of the source (parse failures) never triggers in this
character-level model. -/
def get_domain (url : List Char) : List Char :=
  if url = [] then []
  else
    let u := if startsL url "http://".toList || startsL url "https://".toList
             then url else "http://".toList ++ url
    let rest := if startsL u "https://".toList then u.drop 8 else u.drop 7
    let netloc := rest.takeWhile (fun c => !(c = '/' || c = '?' || c = '#'))
    let d := netloc.map lowerAscii
    if startsL d "www.".toList then d.drop 4 else d

/-- Value category of a Python boolean-ish expression: `_compare_websites`
returns the value of `domain1 and domain2 and domain1 == domain2`, which is a
string when a falsy domain short-circuits the chain and a `bool` otherwise. -/
inductive PyBoolish
  | bool (b : Bool)
  | str (s : List Char)
deriving DecidableEq

/-- Python truthiness of a `PyBoolish` value. -/
def truthyB : PyBoolish → Bool
  | .bool b => b
  | .str s => !(s = [])

/-- Embedding of `MapsEnhancer._compare_websites` (lines 64-72): the Python
expression `domain1 and domain2 and domain1 == domain2` returns the first
falsy operand (an empty string) or, when both domains are truthy, the boolean
comparison. -/
def compare_websites (website1 website2 : List Char) : PyBoolish :=
  let domain1 := get_domain website1
  let domain2 := get_domain website2
  if domain1 = [] then .str domain1
  else if domain2 = [] then .str domain2
  else .bool (domain1 = domain2)

/-- Lookup in a Python dict modelled as an association list (keys are unique
in every dict the source builds; the first binding wins). -/
def dictGet {V : Type} : List (List Char × V) → List Char → Option V
  | [], _ => none
  | (k2, v) :: rest, k => if k2 = k then some v else dictGet rest k

/-- Assignment `d[k] = v` on a Python dict: overwrite the existing binding in
place, or append a new one (insertion order is preserved). -/
def dictSet {V : Type} : List (List Char × V) → List Char → V → List (List Char × V)
  | [], k, v => [(k, v)]
  | (k2, v2) :: rest, k, v =>
    if k2 = k then (k, v) :: rest else (k2, v2) :: dictSet rest k v

/-- Python `d.update(other)`: set every binding of `other` in `d`, in order. -/
def dictUpdate {V : Type} (d other : List (List Char × V)) : List (List Char × V) :=
  other.foldl (fun acc kv => dictSet acc kv.1 kv.2) d

/-- One entry of the `periods` list of an opening-hours structure:
`period.get('open', {}).get('day')` (absent when the period has no open day)
and the close time `period['close']['time']` when the key `'close'` is
present. -/
structure Period where
  openDay : Option Nat
  close : Option (List Char)
deriving DecidableEq

/-- Formatting of a close time in `_get_operating_hours` line 89:
`f"{close_time[:2]}:{close_time[2:]}"`. -/
def fmtTime (t : List Char) : List Char := t.take 2 ++ ':' :: t.drop 2

/-- Inner loop of the weekday scan (lines 86-90): the first period whose open
day equals `d` and which has a close time yields that time formatted. -/
def scanPeriods (d : Nat) : List Period → Option (List Char)
  | [] => none
  | p :: ps =>
    match p.close with
    | some c => if p.openDay = some d then some (fmtTime c) else scanPeriods d ps
    | none => scanPeriods d ps

/-- Python truthiness of the `weekday_close` variable (None or a string). -/
def truthyOpt : Option (List Char) → Bool
  | none => false
  | some t => !(t = [])

/-- Outer loop of the weekday scan (lines 85-92) over `range(1, 6)`, carrying
the mutable `weekday_close`: after each day the loop breaks as soon as
`weekday_close` is truthy. -/
def weekdayLoop (ps : List Period) : List Nat → Option (List Char) → Option (List Char)
  | [], wc => wc
  | d :: ds, wc =>
    let wc2 := match scanPeriods d ps with
      | some t => some t
      | none => wc
    if truthyOpt wc2 then wc2 else weekdayLoop ps ds wc2

/-- Weekend flag loop (lines 95-99): an `if/elif` over all periods setting the
Saturday (day 6) and Sunday (day 0) flags. -/
def weekendLoop : List Period → Bool → Bool → Bool × Bool
  | [], sat, sun => (sat, sun)
  | p :: ps, sat, sun =>
    if p.openDay = some 6 then weekendLoop ps true sun
    else if p.openDay = some 0 then weekendLoop ps sat true
    else weekendLoop ps sat sun

/-- Embedding of `MapsEnhancer._get_operating_hours` (lines 74-111).  The
argument encodes the Python value `opening_hours`: `none` is a falsy value
(`None` or the empty-dict default `place.get('opening_hours', {})`),
`some none` is a non-empty dict without a `'periods'` key, and
`some (some ps)` is a dict whose `'periods'` key holds `ps`.  The guard
`not opening_hours or 'periods' not in opening_hours` is exactly the first
two cases. -/
def get_operating_hours (oh : Option (Option (List Period))) :
    Option (List Char) × Option (List Char) :=
  match oh with
  | none => (none, none)
  | some none => (none, none)
  | some (some ps) =>
    let wc := weekdayLoop ps [1, 2, 3, 4, 5] none
    let flags := weekendLoop ps false false
    let ws := if flags.1 && flags.2 then "Operational".toList
              else if flags.1 then "Sat".toList
              else if flags.2 then "Sun".toList
              else "Not Operational".toList
    (wc, some ws)

/-- A place record: the flat string-valued fields of the JSON object, plus its
`opening_hours` member in the encoding of `get_operating_hours` (`none` when
the key is absent). -/
structure Place where
  fields : List (List Char × List Char)
  hours : Option (Option (List Period))
deriving DecidableEq

/-- Python `place.update(details_result.get('result', {}))`: merge the details
dict into the base place, overwriting overlapping fields (including the
`opening_hours` member when the details carry one). -/
def placeUpdate (p q : Place) : Place :=
  { fields := dictUpdate p.fields q.fields,
    hours := match q.hours with
      | some h => some h
      | none => p.hours }

/-- Parsed JSON body of the text-search response: its `status` field (absent
keys read as `None` via `.get`) and its `results` list (absent reads as the
falsy `None`, which the guard treats like the empty list). -/
structure SearchData where
  status : Option (List Char)
  results : List Place
deriving DecidableEq

/-- Parsed JSON body of the details response: `status` and the `result` dict
(`details_result.get('result', {})` defaults to the empty place). -/
structure DetailsData where
  status : Option (List Char)
  result : Place
deriving DecidableEq

/-- An HTTP response: the status code and the outcome of `.json()` (which can
raise on a malformed body). -/
structure HttpR (α : Type) where
  code : Nat
  js : Except Unit α

/-- The two external collaborators of `search_place`: the text-search request
keyed by the query string and the details request keyed by the place id.
`Except.error` models `requests.get` itself raising. -/
structure ApiEnv where
  searchResp : List Char → Except Unit (HttpR SearchData)
  detailsResp : List Char → Except Unit (HttpR DetailsData)

/-- The query built in `search_place` line 123:
`f"{org_name} {location} USA".strip()` with `org_name` already cleaned. -/
def buildQuery (org_name location : List Char) : List Char :=
  pyStrip (clean_org_name org_name ++ ' ' :: (location ++ ' ' :: "USA".toList))

/-- Embedding of `MapsEnhancer.search_place` (lines 113-173).  The second
component records whether the details request was issued.  The whole body is
wrapped in `try/except`, so any raised error (transport failure or JSON
parsing of either response, or the `place['place_id']` lookup) is caught and
becomes `none`. -/
def search_place (api : ApiEnv) (org_name location target_url : List Char) :
    Option Place × Bool :=
  let q := buildQuery org_name location
  match api.searchResp q with
  | .error _ => (none, false)
  | .ok resp =>
    if resp.code = 200 then
      match resp.js with
      | .error _ => (none, false)
      | .ok result =>
        if result.status = some "OK".toList then
          match result.results with
          | [] => (none, false)
          | place :: _ =>
            match dictGet place.fields "place_id".toList with
            | none => (none, false)
            | some pid =>
              match api.detailsResp pid with
              | .error _ => (none, true)
              | .ok dresp =>
                if dresp.code = 200 then
                  match dresp.js with
                  | .error _ => (none, true)
                  | .ok dresult =>
                    if dresult.status = some "OK".toList then
                      (some (placeUpdate place dresult.result), true)
                    else (some place, true)
                else (some place, true)
        else (none, false)
    else (none, false)

/-- One cell of the tabular data: Python `None` (the initial value of the new
columns), the float `NaN` that pandas stores for a missing CSV field, a
string, or a boolean (`website_matched`). -/
inductive Cell
  | nil
  | nan
  | str (s : List Char)
  | bool (b : Bool)
deriving DecidableEq

/-- Python truthiness of a cell value; note that `NaN` is truthy. -/
def truthyCell : Cell → Bool
  | .nil => false
  | .nan => true
  | .str s => !(s = [])
  | .bool b => b

/-- The test `pd.isna` on a cell value. -/
def isnaCell : Cell → Bool
  | .nil => true
  | .nan => true
  | _ => false

/-- String content of a cell for the calls that feed a cell into
`search_place`; the skip guards of the row loop ensure the cell is a
non-empty string there. -/
def cellStr : Cell → List Char
  | .str s => s
  | _ => []

/-- A row of the data frame: an association list from column name to cell. -/
abbrev Row : Type := List (List Char × Cell)

/-- Cell for an optional string field copied from a place record
(`place.get(k)` is `None` when the key is absent). -/
def cellOfOpt : Option (List Char) → Cell
  | none => .nil
  | some s => .str s

/-- Cell written for `website_matched`: the raw Python value produced by the
`and` chain of `_compare_websites`. -/
def cellOfBoolish : PyBoolish → Cell
  | .bool b => .bool b
  | .str s => .str s

/-- Domain extraction applied to a raw cell (the pipeline passes the CSV cell
straight into `_compare_websites`): for `None` the guard `if not url` returns
`""`, and for a non-string (`NaN`) the attribute access raises inside the
`try` and the `except` branch returns `""`. -/
def getDomainCell : Cell → List Char
  | .str s => get_domain s
  | _ => []

/-- The `_compare_websites` chain evaluated with the raw CSV cell on the left
and the place website string on the right. -/
def compareWebsitesCell (c : Cell) (w : List Char) : PyBoolish :=
  let domain1 := getDomainCell c
  let domain2 := get_domain w
  if domain1 = [] then .str domain1
  else if domain2 = [] then .str domain2
  else .bool (domain1 = domain2)

/-- The new columns initialised in `process_csv` lines 191-205, in source
order. -/
def newColumns : List (List Char) :=
  ["google_maps_link", "place_id", "formatted_address", "phone_number",
   "rating", "user_ratings_total", "website", "business_status",
   "weekday_closing", "weekend_status", "website_matched"].map String.toList

/-- The loop `for col in new_columns: df[col] = None`: every new column is
set to `None` on the row. -/
def initCols (r : Row) : Row :=
  newColumns.foldl (fun d c => dictSet d c Cell.nil) r

/-- Truthiness of the `Optional[Dict]` returned by `search_place` as used by
`if place:` — `None` and the empty dict are falsy. -/
def placeTruthy : Option Place → Bool
  | none => false
  | some p => !(p.fields = []) || !(p.hours = none)

/-- Python `row.get(k, '')` on a row. -/
def rowGetD (r : Row) (k : List Char) : Cell :=
  match dictGet r k with
  | some c => c
  | none => .str []

/-- The eleven `df.at[idx, col] = value` assignments of the match branch
(lines 235-245), as the list of column/value pairs in source order. -/
def matchWrites (place : Place) (pid : List Char) (csv_website : Cell) :
    List (List Char × Cell) :=
  let hrs := get_operating_hours place.hours
  let place_website := match dictGet place.fields "website".toList with
    | some w => w
    | none => []
  let website_matched :=
    if truthyCell csv_website && !(place_website = []) then
      cellOfBoolish (compareWebsitesCell csv_website place_website)
    else Cell.bool false
  [("google_maps_link".toList,
     .str ("https://www.google.com/maps/place/?q=place_id:".toList ++ pid)),
   ("place_id".toList, .str pid),
   ("formatted_address".toList, cellOfOpt (dictGet place.fields "formatted_address".toList)),
   ("phone_number".toList, cellOfOpt (dictGet place.fields "formatted_phone_number".toList)),
   ("rating".toList, cellOfOpt (dictGet place.fields "rating".toList)),
   ("user_ratings_total".toList, cellOfOpt (dictGet place.fields "user_ratings_total".toList)),
   ("website".toList, .str place_website),
   ("business_status".toList, cellOfOpt (dictGet place.fields "business_status".toList)),
   ("weekday_closing".toList, cellOfOpt hrs.1),
   ("weekend_status".toList, cellOfOpt hrs.2),
   ("website_matched".toList, website_matched)]

/-- Sequential execution of a list of cell assignments on a row. -/
def applyWrites (r : Row) (ws : List (List Char × Cell)) : Row :=
  ws.foldl (fun d kv => dictSet d kv.1 kv.2) r

/-- Body of the row loop of `process_csv` (lines 208-259) for one row: read
the name/location/website cells, skip on the guards, otherwise search and, on
a truthy match, perform the eleven column assignments.  The `none` branch of
the `place_id` lookup is unreachable (`search_place` only returns places
carrying a `place_id`, see `search_place_has_place_id`); in Python it would
raise a `KeyError`. -/
def processRow (api : Nat → ApiEnv) (idx : Nat) (row : Row) : Row :=
  let org_name := rowGetD row "organization_name".toList
  let city := rowGetD row "city".toList
  let state := rowGetD row "state".toList
  let csv_website := rowGetD row "organization_website_url".toList
  if isnaCell org_name || !truthyCell org_name then row
  else
    let location := if !isnaCell city && truthyCell city then city else state
    if isnaCell location || !truthyCell location then row
    else
      let place := (search_place (api idx) (cellStr org_name) (cellStr location)
        (cellStr csv_website)).1
      if placeTruthy place then
        match place with
        | none => row
        | some p =>
          match dictGet p.fields "place_id".toList with
          | none => row
          | some pid => applyWrites row (matchWrites p pid csv_website)
      else row

/-- The row loop itself: rows are visited in order with their positional
index (a fresh `read_csv` frame has index labels 0..n-1). -/
def processAll (api : Nat → ApiEnv) : Nat → List Row → List Row
  | _, [] => []
  | i, r :: rs => processRow api i r :: processAll api (i + 1) rs

/-- Embedding of the data transformation of `MapsEnhancer.process_csv`
(lines 175-259): truncate to the first 5 rows in test mode, add the new
columns as `None`, then run the row loop.  The resulting list is what
`df.to_csv` writes. -/
def process_csv_rows (rows : List Row) (test_mode : Bool) (api : Nat → ApiEnv) :
    List Row :=
  let df := if test_mode then rows.take 5 else rows
  processAll api 0 (df.map initCols)

/-- Basename of a POSIX path (`os.path.basename`). -/
def basenameL (p : List Char) : List Char :=
  (p.reverse.takeWhile (fun c => !(c = '/'))).reverse

/-- Embedding of the output step of `process_csv` (lines 261-268): the single
write to `'enhanced_' + os.path.basename(input_file)`.  `writable` says
whether a write to a given path succeeds; on failure the exception is logged
and re-raised (`Except.error`) — the source has no fallback path. -/
def process_csv_save (input_file : List Char) (writable : List Char → Bool) :
    Except (List Char) (List Char) :=
  let output_file := "enhanced_".toList ++ basenameL input_file
  if writable output_file then .ok output_file else .error output_file

/-- Specification-side definition (from the spec's words, for comparison with
the code): scan days Monday(1) through Friday(5) in order; the first day
having a period whose open day matches and which carries a close time yields
that close time formatted, and the scan stops there; a matching period
without a close time is skipped. -/
def specWeekdayClose (ps : List Period) : Option (List Char) :=
  [1, 2, 3, 4, 5].findSome? (fun d =>
    ps.findSome? (fun p =>
      match p.openDay, p.close with
      | some d2, some c => if d2 = d then some (fmtTime c) else none
      | _, _ => none))

/-- Specification-side definition (from the spec's words): "Operational" if
both a Saturday(6)-open and a Sunday(0)-open period exist, "Sat" if only
Saturday, "Sun" if only Sunday, "Not Operational" if neither. -/
def specWeekendStatus (ps : List Period) : List Char :=
  let sat := ps.any (fun p => p.openDay = some 6)
  let sun := ps.any (fun p => p.openDay = some 0)
  if sat && sun then "Operational".toList
  else if sat then "Sat".toList
  else if sun then "Sun".toList
  else "Not Operational".toList

/-- Specification-side predicate (from the spec's words): a zero-padded HH:MM
string — two digits, a colon, two digits. -/
def isHHMM (s : List Char) : Bool :=
  match s with
  | [h1, h2, c, m1, m2] => h1.isDigit && h2.isDigit && c = ':' && m1.isDigit && m2.isDigit
  | _ => false

/-- Collaborator environment whose search request itself raises. -/
def apiFail : ApiEnv := ⟨fun _ => .error (), fun _ => .error ()⟩

/-- Collaborator environment: the search succeeds with status OK and exactly
one result carrying a `place_id`, and the details request raises. -/
def apiDetailRaise : ApiEnv :=
  ⟨fun _ => .ok ⟨200, .ok ⟨some "OK".toList,
      [⟨[("place_id".toList, "p1".toList)], none⟩]⟩⟩,
   fun _ => .error ()⟩

/-- Collaborator environment: the search succeeds with one result and the
details request returns HTTP 500. -/
def apiDetail500 : ApiEnv :=
  ⟨fun _ => .ok ⟨200, .ok ⟨some "OK".toList,
      [⟨[("place_id".toList, "p1".toList)], none⟩]⟩⟩,
   fun _ => .ok ⟨500, .error ()⟩⟩

/-- Collaborator environment: the search succeeds (HTTP 200, parseable body)
but with a non-OK API status and no results. -/
def apiZero : ApiEnv :=
  ⟨fun _ => .ok ⟨200, .ok ⟨some "ZERO_RESULTS".toList, []⟩⟩,
   fun _ => .error ()⟩

/-- Seven-row input used against the test-mode claim; every row has an empty
organization name, so each processed row is skipped unchanged. -/
def sevenRows : List Row :=
  List.replicate 7 [("organization_name".toList, Cell.str [])]

theorem fmtTime_ne_nil (c : List Char) : fmtTime c ≠ [] := by
  simp [fmtTime]

theorem scanPeriods_eq (d : Nat) (ps : List Period) :
    scanPeriods d ps = ps.findSome? (fun p =>
      match p.openDay, p.close with
      | some d2, some c => if d2 = d then some (fmtTime c) else none
      | _, _ => none) := by
  induction ps with
  | nil => rfl
  | cons p ps ih =>
    rcases p with ⟨od, cl⟩
    rw [List.findSome?_cons]
    rcases cl with _ | c
    · rcases od with _ | d2 <;> simpa [scanPeriods] using ih
    · rcases od with _ | d2
      · simpa [scanPeriods] using ih
      · by_cases h : d2 = d
        · subst h; simp [scanPeriods]
        · simp [scanPeriods, h, ih]

theorem scanPeriods_some_ne_nil (d : Nat) (ps : List Period) (t : List Char)
    (h : scanPeriods d ps = some t) : t ≠ [] := by
  induction ps with
  | nil => simp [scanPeriods] at h
  | cons p ps ih =>
    rcases p with ⟨od, cl⟩
    rcases cl with _ | c
    · exact ih (by simpa [scanPeriods] using h)
    · by_cases hd : od = some d
      · rw [scanPeriods] at h
        simp only [hd, if_pos rfl] at h
        cases h
        exact fmtTime_ne_nil c
      · rw [scanPeriods] at h
        simp only [if_neg hd] at h
        exact ih h

theorem weekdayLoop_eq (ps : List Period) (days : List Nat) :
    weekdayLoop ps days none = days.findSome? (fun d => scanPeriods d ps) := by
  induction days with
  | nil => rfl
  | cons d ds ih =>
    rw [List.findSome?_cons]
    cases h : scanPeriods d ps with
    | none => simpa [weekdayLoop, h, truthyOpt] using ih
    | some t =>
      have ht := scanPeriods_some_ne_nil d ps t h
      simp [weekdayLoop, h, truthyOpt, ht]

theorem weekendLoop_eq (ps : List Period) (sat sun : Bool) :
    weekendLoop ps sat sun =
      (sat || ps.any (fun p => p.openDay = some 6),
       sun || ps.any (fun p => p.openDay = some 0)) := by
  induction ps generalizing sat sun with
  | nil => simp [weekendLoop]
  | cons p ps ih =>
    by_cases h6 : p.openDay = some 6
    · simp [weekendLoop, h6, ih, Bool.or_assoc]
    · by_cases h0 : p.openDay = some 0
      · simp [weekendLoop, h6, h0, ih, Bool.or_assoc]
      · simp [weekendLoop, h6, h0, ih]

/-- C6: for every weekly-hours structure with a periods list, the weekday
close is the close time of the first period, in day order Monday(1) to
Friday(5) then period order, whose open day matches and which carries a close
time (periods without a close time are skipped, and the scan stops at the
first hit), and the weekend status is "Operational"/"Sat"/"Sun"/
"Not Operational" according to whether Saturday(6)-open and Sunday(0)-open
periods exist. -/
theorem c6_hours_summary (ps : List Period) :
    get_operating_hours (some (some ps)) =
      (specWeekdayClose ps, some (specWeekendStatus ps)) := by
  have hwd : (fun d => scanPeriods d ps) = (fun d =>
      ps.findSome? (fun p =>
        match p.openDay, p.close with
        | some d2, some c => if d2 = d then some (fmtTime c) else none
        | _, _ => none)) := funext (fun d => scanPeriods_eq d ps)
  show (weekdayLoop ps [1, 2, 3, 4, 5] none, _) = _
  rw [weekdayLoop_eq, hwd, weekendLoop_eq]
  simp [specWeekdayClose, specWeekendStatus]

/-- C5 counterexample: a present opening-hours structure whose periods list is
empty does not give (absent, absent); the weekend branch still reports
"Not Operational". -/
theorem c5_counterexample : get_operating_hours (some (some [])) ≠ (none, none) := by
  decide

/-- C5 amended: with an absent or falsy opening-hours value, or a structure
without a periods key, the summarizer returns (absent, absent); with a
present structure whose periods list is empty it returns
(absent, "Not Operational"). -/
theorem c5_no_periods :
    get_operating_hours none = (none, none) ∧
    get_operating_hours (some none) = (none, none) ∧
    get_operating_hours (some (some [])) = (none, some "Not Operational".toList) := by
  refine ⟨rfl, rfl, by decide⟩

theorem findSome?_exists {α β : Type} (f : α → Option β) (l : List α) (b : β)
    (h : l.findSome? f = some b) : ∃ a ∈ l, f a = some b := by
  induction l with
  | nil => simp [List.findSome?] at h
  | cons a l ih =>
    rw [List.findSome?_cons] at h
    cases hf : f a with
    | none =>
      rw [hf] at h
      obtain ⟨x, hx, hfx⟩ := ih h
      exact ⟨x, List.mem_cons_of_mem a hx, hfx⟩
    | some c =>
      rw [hf] at h
      cases h
      exact ⟨a, List.mem_cons_self a l, hf⟩

theorem scanPeriods_provenance (d : Nat) (ps : List Period) (t : List Char)
    (h : scanPeriods d ps = some t) :
    ∃ p ∈ ps, ∃ c, p.close = some c ∧ t = fmtTime c := by
  induction ps with
  | nil => simp [scanPeriods] at h
  | cons p ps ih =>
    rcases p with ⟨od, cl⟩
    rcases cl with _ | c
    · obtain ⟨q, hq, hc⟩ := ih (by simpa [scanPeriods] using h)
      exact ⟨q, List.mem_cons_of_mem _ hq, hc⟩
    · by_cases hd : od = some d
      · rw [scanPeriods] at h
        simp only [hd, if_pos rfl] at h
        cases h
        exact ⟨⟨od, some c⟩, List.mem_cons_self _ _, c, rfl, rfl⟩
      · rw [scanPeriods] at h
        simp only [if_neg hd] at h
        obtain ⟨q, hq, hc⟩ := ih h
        exact ⟨q, List.mem_cons_of_mem _ hq, hc⟩

/-- C9 counterexample: a close time that is not a four-digit string is not
zero-padded by the formatter; the colon is inserted after the first two
characters unconditionally, so close time "900" yields "90:0", which is not
of shape HH:MM. -/
theorem c9_counterexample :
    (get_operating_hours (some (some [⟨some 1, some "900".toList⟩]))).1 =
      some "90:0".toList ∧ isHHMM "90:0".toList = false := by
  decide

/-- C9 amended: whenever every close time stored in the periods is a
four-digit string (as the upstream API's HHMM times are), any weekday closing
string the summarizer returns has the zero-padded shape HH:MM. -/
theorem c9_hhmm_format (ps : List Period) (t : List Char)
    (hwf : ∀ p ∈ ps, ∀ c, p.close = some c → c.length = 4 ∧ c.all Char.isDigit = true)
    (h : (get_operating_hours (some (some ps))).1 = some t) :
    isHHMM t = true := by
  have hw : weekdayLoop ps [1, 2, 3, 4, 5] none = some t := h
  rw [weekdayLoop_eq] at hw
  obtain ⟨d, _, hd⟩ := findSome?_exists _ _ _ hw
  obtain ⟨p, hp, c, hc, ht⟩ := scanPeriods_provenance d ps t hd
  obtain ⟨hlen, hdig⟩ := hwf p hp c hc
  subst ht
  rcases c with _ | ⟨a, _ | ⟨b, _ | ⟨e, _ | ⟨f, _ | ⟨g, c⟩⟩⟩⟩⟩ <;>
    simp_all [fmtTime, isHHMM]

/-- Witness for `c9_hhmm_format` at a concrete input. -/
theorem c9_witness :
    (get_operating_hours (some (some [⟨some 1, some "1700".toList⟩]))).1 =
      some "17:00".toList ∧ isHHMM "17:00".toList = true := by
  refine ⟨by decide, c9_hhmm_format [⟨some 1, some "1700".toList⟩] "17:00".toList ?_ (by decide)⟩
  intro p hp c hc
  rw [List.mem_singleton] at hp
  subst hp
  cases hc
  exact ⟨rfl, rfl⟩

/-- C7 counterexample: with an empty website on the left, `_compare_websites`
returns the empty string produced by the Python `and` chain, which is not a
boolean value at all (in particular not the boolean false the claim
describes). -/
theorem c7_counterexample :
    compare_websites [] "http://a.com".toList = .str [] ∧
    ∀ b : Bool, PyBoolish.str [] ≠ PyBoolish.bool b := by
  exact ⟨by decide, by decide⟩

/-- C7 amended: `_compare_websites` returns the value of the Python chain
`domain1 and domain2 and domain1 == domain2` — a boolean only when both
extracted domains are non-empty, and an empty (falsy) string otherwise; its
truthiness is true exactly when both domains are non-empty and equal, the
spec's true example evaluates to the boolean true, and the empty-side example
is falsy (but is the string "" rather than the boolean false). -/
theorem c7_domain_compare :
    (∀ w1 w2 : List Char, truthyB (compare_websites w1 w2) = true ↔
      (get_domain w1 ≠ [] ∧ get_domain w2 ≠ [] ∧ get_domain w1 = get_domain w2)) ∧
    compare_websites "http://a.com".toList "https://www.a.com/x".toList = .bool true ∧
    truthyB (compare_websites [] "http://a.com".toList) = false := by
  refine ⟨?_, by decide, by decide⟩
  intro w1 w2
  unfold compare_websites
  by_cases h1 : get_domain w1 = []
  · simp [h1, truthyB]
  · by_cases h2 : get_domain w2 = []
    · simp [h1, h2, truthyB]
    · simp [h1, h2, truthyB]

/-- C8: when the text-search transport succeeds (HTTP 200, parseable body)
but the API status is not OK or the result list is empty, `search_place`
returns absent and the details request is never issued. -/
theorem c8_zero_results_no_details (api : ApiEnv) (org loc turl : List Char)
    (resp : HttpR SearchData) (r : SearchData)
    (h1 : api.searchResp (buildQuery org loc) = .ok resp)
    (h2 : resp.code = 200) (h3 : resp.js = .ok r)
    (h4 : r.status ≠ some "OK".toList ∨ r.results = []) :
    search_place api org loc turl = (none, false) := by
  unfold search_place
  simp only [h1, h2, h3, if_pos rfl]
  rcases h4 with h4 | h4
  · simp_all
  · by_cases hst : r.status = some "OK".toList <;> simp_all

/-- Witness for `c8_zero_results_no_details` at a concrete environment. -/
theorem c8_witness :
    apiZero.searchResp (buildQuery [] []) =
      .ok ⟨200, .ok ⟨some "ZERO_RESULTS".toList, []⟩⟩ ∧
    search_place apiZero [] [] [] = (none, false) :=
  ⟨rfl, c8_zero_results_no_details apiZero [] [] []
    ⟨200, .ok ⟨some "ZERO_RESULTS".toList, []⟩⟩ ⟨some "ZERO_RESULTS".toList, []⟩
    rfl rfl rfl (Or.inr rfl)⟩

/-- C2 counterexample: the search succeeds with one result, the subsequent
details request raises a transport error, and `search_place` returns absent —
the base candidate is discarded (second component: the details call was in
fact made). -/
theorem c2_counterexample :
    search_place apiDetailRaise "A".toList "B".toList [] = (none, true) := by
  decide

/-- C2 amended: the base candidate survives a details failure only when the
details request yields a response — a non-200 status code, or a parseable
body with a non-OK status, leaves the base match in place; a raised
transport or JSON-parsing error during the details call is caught by the
enclosing handler and makes the whole search return absent. -/
theorem c2_details_failure_keeps_base (api : ApiEnv) (org loc turl : List Char)
    (resp : HttpR SearchData) (r : SearchData) (p : Place) (rest : List Place)
    (pid : List Char) (dresp : HttpR DetailsData)
    (h1 : api.searchResp (buildQuery org loc) = .ok resp)
    (h2 : resp.code = 200) (h3 : resp.js = .ok r)
    (h4 : r.status = some "OK".toList) (h5 : r.results = p :: rest)
    (h6 : dictGet p.fields "place_id".toList = some pid)
    (h7 : api.detailsResp pid = .ok dresp)
    (h8 : dresp.code ≠ 200 ∨
      ∃ dr, dresp.js = .ok dr ∧ dr.status ≠ some "OK".toList) :
    (search_place api org loc turl).1 = some p := by
  unfold search_place
  simp only [h1, h2, h3, h4, h5, h6, h7, if_pos rfl]
  rcases h8 with h8 | ⟨dr, hjs, hst⟩
  · simp [h8]
  · by_cases hc : dresp.code = 200
    · simp_all
    · simp [hc]

/-- Witness for `c2_details_failure_keeps_base` at a concrete environment
(details response HTTP 500). -/
theorem c2_witness :
    apiDetail500.detailsResp "p1".toList = .ok ⟨500, .error ()⟩ ∧
    (search_place apiDetail500 "A".toList "B".toList []).1 =
      some ⟨[("place_id".toList, "p1".toList)], none⟩ :=
  ⟨rfl, c2_details_failure_keeps_base apiDetail500 "A".toList "B".toList []
    ⟨200, .ok ⟨some "OK".toList, [⟨[("place_id".toList, "p1".toList)], none⟩]⟩⟩
    ⟨some "OK".toList, [⟨[("place_id".toList, "p1".toList)], none⟩]⟩
    ⟨[("place_id".toList, "p1".toList)], none⟩ [] "p1".toList ⟨500, .error ()⟩
    rfl rfl rfl rfl rfl rfl rfl (Or.inl (by decide))⟩

/-- C3 counterexample: with the canonical destination not writable but every
other path writable, `process_csv_save` still fails — the source has no
fallback filename, the exception is re-raised. -/
theorem c3_counterexample :
    process_csv_save "dataset.csv".toList
        (fun n => !(n = "enhanced_dataset.csv".toList)) =
      .error "enhanced_dataset.csv".toList ∧
    (!("fallback.csv".toList = "enhanced_dataset.csv".toList)) = true := by
  exact ⟨rfl, by decide⟩

/-- C3 amended: when the destination `enhanced_` + basename is not writable,
the write raises and the error propagates out of `process_csv` (after being
logged) — every write failure of the single destination is fatal; no
alternate filename is tried. -/
theorem c3_write_failure_fatal (input_file : List Char) (writable : List Char → Bool)
    (h : writable ("enhanced_".toList ++ basenameL input_file) = false) :
    process_csv_save input_file writable =
      .error ("enhanced_".toList ++ basenameL input_file) := by
  simp only [process_csv_save]
  rw [h]
  simp

/-- Witness for `c3_write_failure_fatal` at a concrete input. -/
theorem c3_witness :
    (fun _ : List Char => false) ("enhanced_".toList ++ basenameL "data.csv".toList) = false ∧
    process_csv_save "data.csv".toList (fun _ => false) =
      .error ("enhanced_".toList ++ basenameL "data.csv".toList) :=
  ⟨rfl, c3_write_failure_fatal "data.csv".toList (fun _ => false) rfl⟩

theorem dictGet_eq_none_iff {V : Type} (d : List (List Char × V)) (k : List Char) :
    dictGet d k = none ↔ k ∉ d.map Prod.fst := by
  induction d with
  | nil => exact iff_of_true rfl (List.not_mem_nil k)
  | cons kv rest ih =>
    rcases kv with ⟨k2, v⟩
    by_cases h : k2 = k
    · subst h
      rw [dictGet, if_pos rfl]
      constructor
      · intro hc
        exact Option.noConfusion hc
      · intro hc
        exfalso
        apply hc
        rw [List.map_cons]
        exact List.mem_cons_self _ _
    · rw [dictGet, if_neg h, List.map_cons, List.mem_cons, ih]
      constructor
      · intro h1 h2
        rcases h2 with h2 | h2
        · exact h (h2.symm)
        · exact h1 h2
      · intro h1 h2
        exact h1 (Or.inr h2)

theorem dictSet_eq_append {V : Type} (d : List (List Char × V)) (k : List Char)
    (v : V) (h : dictGet d k = none) : dictSet d k v = d ++ [(k, v)] := by
  induction d with
  | nil => rfl
  | cons kv rest ih =>
    rcases kv with ⟨k2, v2⟩
    rw [dictGet] at h
    by_cases hk : k2 = k
    · rw [if_pos hk] at h; cases h
    · rw [if_neg hk] at h
      rw [dictSet, if_neg hk, ih h, List.cons_append]

theorem dictSet_append_left {V : Type} (a b : List (List Char × V)) (k : List Char)
    (v : V) (h : dictGet a k = none) : dictSet (a ++ b) k v = a ++ dictSet b k v := by
  induction a with
  | nil => rfl
  | cons kv rest ih =>
    rcases kv with ⟨k2, v2⟩
    rw [dictGet] at h
    by_cases hk : k2 = k
    · rw [if_pos hk] at h; cases h
    · rw [if_neg hk] at h
      rw [List.cons_append, dictSet, if_neg hk, ih h, List.cons_append]

theorem keys_dictSet_of_mem {V : Type} (d : List (List Char × V)) (k : List Char)
    (v : V) (h : k ∈ d.map Prod.fst) :
    (dictSet d k v).map Prod.fst = d.map Prod.fst := by
  induction d with
  | nil => simp at h
  | cons kv rest ih =>
    rcases kv with ⟨k2, v2⟩
    by_cases hk : k2 = k
    · subst hk
      rw [dictSet, if_pos rfl, List.map_cons, List.map_cons]
    · have hmem : k ∈ rest.map Prod.fst := by
        rw [List.map_cons] at h
        rcases List.mem_cons.mp h with h1 | h1
        · exact absurd h1.symm hk
        · exact h1
      rw [dictSet, if_neg hk, List.map_cons, List.map_cons, ih hmem]

theorem foldl_setnil_append (cols : List (List Char)) :
    ∀ r : Row, cols.Nodup → (∀ c ∈ cols, dictGet r c = none) →
    List.foldl (fun d c => dictSet d c Cell.nil) r cols =
      r ++ cols.map (fun c => (c, Cell.nil)) := by
  induction cols with
  | nil => intro r _ _; simp
  | cons c cols ih =>
    intro r hnd h
    rw [List.foldl_cons, dictSet_eq_append r c Cell.nil (h c (List.mem_cons_self c cols))]
    rw [ih (r ++ [(c, Cell.nil)]) (List.Nodup.of_cons hnd)]
    · simp
    · intro c2 hc2
      rw [dictGet_eq_none_iff]
      have h1 : c2 ∉ r.map Prod.fst :=
        (dictGet_eq_none_iff r c2).mp (h c2 (List.mem_cons_of_mem c hc2))
      have h2 : c2 ≠ c := by
        intro he
        exact (List.nodup_cons.mp hnd).1 (he ▸ hc2)
      simp [h1, h2]

theorem initCols_append (r : Row) (h : ∀ c ∈ newColumns, dictGet r c = none) :
    initCols r = r ++ newColumns.map (fun c => (c, Cell.nil)) := by
  exact foldl_setnil_append newColumns r (by decide) h

theorem applyWrites_frame (ws : List (List Char × Cell)) :
    ∀ (r0 tl : Row), (∀ kv ∈ ws, kv.1 ∈ tl.map Prod.fst) →
    (∀ kv ∈ ws, dictGet r0 kv.1 = none) →
    ∃ tl2, applyWrites (r0 ++ tl) ws = r0 ++ tl2 ∧
      tl2.map Prod.fst = tl.map Prod.fst := by
  induction ws with
  | nil => intro r0 tl _ _; exact ⟨tl, rfl, rfl⟩
  | cons kv ws ih =>
    intro r0 tl h1 h2
    have hmem := h1 kv (List.mem_cons_self kv ws)
    have hnone := h2 kv (List.mem_cons_self kv ws)
    have hstep : applyWrites (r0 ++ tl) (kv :: ws) =
        applyWrites (r0 ++ dictSet tl kv.1 kv.2) ws := by
      rw [applyWrites, List.foldl_cons, dictSet_append_left r0 tl kv.1 kv.2 hnone]
      rfl
    have hkeys := keys_dictSet_of_mem tl kv.1 kv.2 hmem
    obtain ⟨tl2, he, hk⟩ := ih r0 (dictSet tl kv.1 kv.2)
      (fun kv2 hkv2 => hkeys ▸ h1 kv2 (List.mem_cons_of_mem kv hkv2))
      (fun kv2 hkv2 => h2 kv2 (List.mem_cons_of_mem kv hkv2))
    exact ⟨tl2, hstep ▸ he, hk.trans hkeys⟩

theorem matchWrites_keys (p : Place) (pid : List Char) (w : Cell) :
    (matchWrites p pid w).map Prod.fst = newColumns := rfl

theorem nilTail_keys :
    (newColumns.map (fun c => (c, Cell.nil))).map Prod.fst = newColumns := by
  decide

theorem applyWrites_matchWrites (p : Place) (pid : List Char) (w : Cell) (r0 : Row)
    (h : ∀ c ∈ newColumns, dictGet r0 c = none) :
    ∃ tl, applyWrites (r0 ++ newColumns.map (fun c => (c, Cell.nil)))
        (matchWrites p pid w) = r0 ++ tl ∧ tl.map Prod.fst = newColumns := by
  obtain ⟨tl2, he, hk⟩ := applyWrites_frame (matchWrites p pid w) r0
    (newColumns.map (fun c => (c, Cell.nil)))
    (fun kv hkv => by
      rw [nilTail_keys]
      have hm : kv.1 ∈ (matchWrites p pid w).map Prod.fst :=
        List.mem_map_of_mem Prod.fst hkv
      rwa [matchWrites_keys] at hm)
    (fun kv hkv => by
      apply h
      have hm : kv.1 ∈ (matchWrites p pid w).map Prod.fst :=
        List.mem_map_of_mem Prod.fst hkv
      rwa [matchWrites_keys] at hm)
  exact ⟨tl2, he, hk.trans nilTail_keys⟩

theorem processRow_frame (api : Nat → ApiEnv) (i : Nat) (r0 : Row)
    (h : ∀ c ∈ newColumns, dictGet r0 c = none) :
    ∃ tl, processRow api i (initCols r0) = r0 ++ tl ∧
      tl.map Prod.fst = newColumns := by
  rw [initCols_append r0 h]
  unfold processRow
  dsimp only
  repeat' split
  all_goals first
    | exact ⟨newColumns.map (fun c => (c, Cell.nil)), rfl, nilTail_keys⟩
    | exact applyWrites_matchWrites _ _ _ r0 h

theorem processAll_frame (api : Nat → ApiEnv) (rs : List Row) :
    ∀ i : Nat, (∀ r ∈ rs, ∀ c ∈ newColumns, dictGet r c = none) →
    List.Forall₂ (fun r0 r1 => ∃ tl, r1 = r0 ++ tl ∧ tl.map Prod.fst = newColumns)
      rs (processAll api i (rs.map initCols)) := by
  induction rs with
  | nil => intro i _; exact List.Forall₂.nil
  | cons r rs ih =>
    intro i h
    rw [List.map_cons]
    obtain ⟨tl, he, hk⟩ := processRow_frame api i r (h r (List.mem_cons_self r rs))
    exact List.Forall₂.cons ⟨tl, he, hk⟩
      (ih (i + 1) (fun r2 hr2 => h r2 (List.mem_cons_of_mem r hr2)))

/-- C1 counterexample: with a 7-row input and test mode on, the pipeline's
output has only 5 rows — the last two input rows are dropped entirely rather
than appearing with unset derived columns. -/
theorem c1_counterexample :
    sevenRows.length = 7 ∧
    (process_csv_rows sevenRows true (fun _ => apiFail)).length = 5 := by
  exact ⟨by decide, by decide⟩

/-- C1 amended: provided no input column shares a name with one of the eleven
derived columns, every processed input row is preserved unchanged as a prefix
of the corresponding output row, in the original order, with exactly the
derived columns appended; however with testMode=true the frame is first
truncated to the first 5 rows, so the remaining rows of a longer input do not
appear in the output at all.  In non-test mode the original claim's
row/column preservation holds for the whole input. -/
theorem c1_row_frame (rows : List Row) (test_mode : Bool) (api : Nat → ApiEnv)
    (h : ∀ r ∈ rows, ∀ c ∈ newColumns, dictGet r c = none) :
    List.Forall₂ (fun r0 r1 => ∃ tl, r1 = r0 ++ tl ∧ tl.map Prod.fst = newColumns)
      (if test_mode then rows.take 5 else rows)
      (process_csv_rows rows test_mode api) := by
  unfold process_csv_rows
  dsimp only
  apply processAll_frame
  intro r hr
  apply h
  cases test_mode with
  | false => exact hr
  | true => exact (List.take_sublist 5 rows).subset hr

/-- Witness for `c1_row_frame` at a concrete input (non-test mode). -/
theorem c1_witness :
    (∀ r ∈ sevenRows, ∀ c ∈ newColumns, dictGet r c = none) ∧
    List.Forall₂ (fun r0 r1 => ∃ tl, r1 = r0 ++ tl ∧ tl.map Prod.fst = newColumns)
      sevenRows (process_csv_rows sevenRows false (fun _ => apiFail)) :=
  ⟨by decide, c1_row_frame sevenRows false (fun _ => apiFail) (by decide)⟩

theorem tok_ne_nil : ∀ t ∈ suffixTokens, t ≠ [] := by decide

theorem tok_chars : ∀ t ∈ suffixTokens, ∀ c ∈ t,
    isPySpace c = false ∧ c ≠ '.' ∧ lowerAscii c ≠ ' ' := by decide

theorem getLast?_mem_own {α : Type} : ∀ (l : List α) (c : α), l.getLast? = some c → c ∈ l := by
  intro l
  induction l with
  | nil => intro c h; cases h
  | cons a l ih =>
    intro c h
    rcases l with _ | ⟨b, l2⟩
    · cases h
      exact List.mem_singleton_self a
    · rw [List.getLast?_cons_cons] at h
      exact List.mem_cons_of_mem a (ih c h)

theorem tok_last : ∀ t ∈ suffixTokens, ∀ c, t.getLast? = some c →
    isPySpace c = false ∧ c ≠ '.' := by
  intro t ht c hc
  have := tok_chars t ht c (getLast?_mem_own t c hc)
  exact ⟨this.1, this.2.1⟩

theorem startsCI_refl : ∀ l : List Char, startsCI l l = true := by
  intro l
  induction l with
  | nil => rfl
  | cons a l ih => simp [startsCI, ih]

theorem startsCI_get (t : List Char) :
    ∀ s : List Char, startsCI t s = true → ∀ i, i < t.length →
    ∃ a b, t.get? i = some a ∧ s.get? i = some b ∧ lowerAscii a = lowerAscii b := by
  induction t with
  | nil => intro s _ i hi; simp at hi
  | cons a ts ih =>
    intro s h i hi
    rcases s with _ | ⟨b, ss⟩
    · cases h
    · rw [startsCI, Bool.and_eq_true] at h
      rcases i with _ | j
      · exact ⟨a, b, rfl, rfl, by simpa using h.1⟩
      · obtain ⟨a2, b2, h1, h2, h3⟩ := ih ss h.2 j (by simpa using hi)
        exact ⟨a2, b2, h1, h2, h3⟩

theorem dropWhile_append_of_ne_nil :
    ∀ u v : List Char, u.dropWhile isPySpace ≠ [] →
    (u ++ v).dropWhile isPySpace = u.dropWhile isPySpace ++ v := by
  intro u
  induction u with
  | nil => intro v h; exact absurd rfl h
  | cons c u ih =>
    intro v h
    by_cases hc : isPySpace c = true
    · rw [List.dropWhile_cons, if_pos hc] at h
      rw [List.cons_append, List.dropWhile_cons, if_pos hc, ih v h,
        List.dropWhile_cons, if_pos hc]
    · rw [List.cons_append, List.dropWhile_cons, if_neg hc,
        List.dropWhile_cons, if_neg hc, List.cons_append]

theorem dropWhile_ne_nil_of_getLast :
    ∀ u : List Char, ∀ c, u.getLast? = some c → isPySpace c = false →
    u.dropWhile isPySpace ≠ [] := by
  intro u
  induction u with
  | nil => intro c h; cases h
  | cons a u ih =>
    intro c h hc
    rcases u with _ | ⟨b, u2⟩
    · rw [List.getLast?_singleton] at h
      cases h
      rw [List.dropWhile_cons, if_neg (by simp [hc])]
      simp
    · rw [List.getLast?_cons_cons] at h
      rw [List.dropWhile_cons]
      by_cases ha : isPySpace a = true
      · rw [if_pos ha]
        exact ih c h hc
      · rw [if_neg ha]
        simp

theorem tailDotWs_getLast (r : List Char) (c : Char) (h : tailDotWs r = true)
    (hl : r.getLast? = some c) : (c = '.' ∧ r = ['.']) ∨ isPySpace c = true := by
  rcases r with _ | ⟨c1, r1⟩
  · cases hl
  · rw [tailDotWs] at h
    by_cases hc1 : c1 = '.'
    · rw [if_pos hc1] at h
      rcases r1 with _ | ⟨a, r2⟩
      · cases hl
        exact Or.inl ⟨hc1, by rw [hc1]⟩
      · rw [List.getLast?_cons_cons] at hl
        have hc := getLast?_mem_own _ c hl
        exact Or.inr (by
          rw [List.all_eq_true] at h
          exact h c hc)
    · rw [if_neg hc1] at h
      have hc := getLast?_mem_own _ c hl
      rw [List.all_eq_true] at h
      exact Or.inr (h c hc)

theorem noMatchMid (u t2 : List Char) (ht2 : t2 ∈ suffixTokens)
    (hu : u.dropWhile isPySpace ≠ []) :
    matchesTail (u ++ ' ' :: t2) = false := by
  rw [matchesTail, List.any_eq_false]
  intro t ht
  intro hcon
  rw [dropWhile_append_of_ne_nil u (' ' :: t2) hu, Bool.and_eq_true] at hcon
  obtain ⟨hsci, htdw⟩ := hcon
  by_cases hlen : t.length ≤ (u.dropWhile isPySpace).length
  · rw [List.drop_append_of_le_length hlen] at htdw
    have ht2ne := tok_ne_nil t2 ht2
    obtain ⟨c2, hc2⟩ := Option.isSome_iff_exists.mp (List.getLast?_isSome.mpr ht2ne)
    have hrem : ((u.dropWhile isPySpace).drop t.length ++ ' ' :: t2).getLast? = some c2 := by
      rw [List.getLast?_append]
      rcases t2 with _ | ⟨x, t2'⟩
      · exact absurd rfl ht2ne
      · rw [List.getLast?_cons_cons, hc2]
        rfl
    rcases tailDotWs_getLast _ c2 htdw hrem with ⟨hdot, _⟩ | hws
    · exact (tok_last t2 ht2 c2 hc2).2 hdot
    · rw [(tok_last t2 ht2 c2 hc2).1] at hws
      cases hws
  · push_neg at hlen
    obtain ⟨a, b, hta, hsb, hab⟩ := startsCI_get t _ hsci (u.dropWhile isPySpace).length hlen
    have hsp : ((u.dropWhile isPySpace) ++ ' ' :: t2).get? (u.dropWhile isPySpace).length =
        some ' ' := by
      rw [List.get?_append_right (le_refl _)]
      simp
    rw [hsp] at hsb
    cases hsb
    have ha := tok_chars t ht a (List.get?_mem hta)
    exact ha.2.2 hab

theorem matchesTail_token (t2 : List Char) (ht2 : t2 ∈ suffixTokens) :
    matchesTail (' ' :: t2) = true := by
  rw [matchesTail, List.any_eq_true]
  refine ⟨t2, ht2, ?_⟩
  have hd : (' ' :: t2).dropWhile isPySpace = t2 := by
    rw [List.dropWhile_cons, if_pos (by decide)]
    rcases t2 with _ | ⟨x, t2'⟩
    · rfl
    · have hx := (tok_chars _ ht2 x (List.mem_cons_self x t2')).1
      rw [List.dropWhile_cons, if_neg (by rw [hx]; simp)]
  rw [hd, startsCI_refl, List.drop_length]
  rfl

theorem reSubSuffix_append_token (t2 : List Char) (ht2 : t2 ∈ suffixTokens) :
    ∀ b : List Char, b ≠ [] → (∀ c, b.getLast? = some c → isPySpace c = false) →
    reSubSuffix (b ++ ' ' :: t2) = b := by
  intro b
  induction b with
  | nil => intro h _; exact absurd rfl h
  | cons x b ih =>
    intro _ hlast
    rcases b with _ | ⟨y, b2⟩
    · have hx : isPySpace x = false := hlast x (List.getLast?_singleton x)
      have hnm : matchesTail ([x] ++ ' ' :: t2) = false :=
        noMatchMid [x] t2 ht2
          (by rw [List.dropWhile_cons, if_neg (by rw [hx]; simp)]; simp)
      show reSubSuffix (x :: ' ' :: t2) = [x]
      rw [reSubSuffix, if_neg (by rw [show (x :: ' ' :: t2) = [x] ++ ' ' :: t2 from rfl, hnm]; simp)]
      rw [reSubSuffix, if_pos (matchesTail_token t2 ht2)]
    · have hlast2 : ∀ c, (y :: b2).getLast? = some c → isPySpace c = false := by
        intro c hc
        exact hlast c (by rw [List.getLast?_cons_cons]; exact hc)
      obtain ⟨c2, hc2⟩ := Option.isSome_iff_exists.mp
        (List.getLast?_isSome.mpr (by simp : (y : Char) :: b2 ≠ []))
      have hnm : matchesTail ((x :: y :: b2) ++ ' ' :: t2) = false :=
        noMatchMid _ t2 ht2
          (dropWhile_ne_nil_of_getLast _ c2
            (by rw [List.getLast?_cons_cons]; exact hc2) (hlast2 c2 hc2))
      show reSubSuffix (x :: ((y :: b2) ++ ' ' :: t2)) = x :: y :: b2
      rw [reSubSuffix, if_neg (by rw [show (x :: ((y :: b2) ++ ' ' :: t2)) = (x :: y :: b2) ++ ' ' :: t2 from rfl, hnm]; simp)]
      rw [ih (by simp) hlast2]

/-- C10: the anchored suffix substitution is applied in a single pass — for
every name of the form a + " " + t1 + " " + t2 with t1, t2 legal-suffix
tokens, exactly the final token (with its separating whitespace) is removed
and the inner suffix token is retained. -/
theorem c10_single_suffix_strip (a t1 t2 : List Char)
    (h1 : t1 ∈ suffixTokens) (h2 : t2 ∈ suffixTokens) :
    reSubSuffix (a ++ ' ' :: (t1 ++ ' ' :: t2)) = a ++ ' ' :: t1 := by
  have ht1ne := tok_ne_nil t1 h1
  have hlast : ∀ c, (a ++ ' ' :: t1).getLast? = some c → isPySpace c = false := by
    intro c hc
    rw [List.getLast?_append] at hc
    rcases t1 with _ | ⟨x, t1'⟩
    · exact absurd rfl ht1ne
    · rw [List.getLast?_cons_cons] at hc
      obtain ⟨c2, hc2⟩ := Option.isSome_iff_exists.mp
        (List.getLast?_isSome.mpr (by simp : (x : Char) :: t1' ≠ []))
      rw [hc2] at hc
      have hcc : c2 = c := Option.some.inj hc
      subst hcc
      exact (tok_last _ h1 c2 hc2).1
  have := reSubSuffix_append_token t2 h2 (a ++ ' ' :: t1) (by simp) hlast
  rw [List.append_assoc] at this
  exact this

/-- Witness for `c10_single_suffix_strip` at the spec's example
"Acme Services LLC". -/
theorem c10_witness :
    "Services".toList ∈ suffixTokens ∧ "LLC".toList ∈ suffixTokens ∧
    reSubSuffix ("Acme".toList ++ ' ' :: ("Services".toList ++ ' ' :: "LLC".toList)) =
      "Acme".toList ++ ' ' :: "Services".toList :=
  ⟨by decide, by decide,
    c10_single_suffix_strip "Acme".toList "Services".toList "LLC".toList
      (by decide) (by decide)⟩

theorem pyWordsAux_word (w : List Char) :
    ∀ (rest acc : List Char), (∀ c ∈ w, isPySpace c = false) →
    pyWordsAux (w ++ rest) acc = pyWordsAux rest (w.reverse ++ acc) := by
  induction w with
  | nil => intro rest acc _; rfl
  | cons c w ih =>
    intro rest acc h
    have hc := h c (List.mem_cons_self c w)
    rw [List.cons_append, pyWordsAux, if_neg (by rw [hc]; simp)]
    rw [ih rest (c :: acc) (fun d hd => h d (List.mem_cons_of_mem c hd))]
    simp

theorem pyWords_word_append (w r : List Char) (hne : w ≠ [])
    (h : ∀ c ∈ w, isPySpace c = false) :
    pyWords (w ++ ' ' :: r) = w :: pyWords r := by
  rw [pyWords, pyWordsAux_word w (' ' :: r) [] h, pyWordsAux, if_pos (by decide)]
  rw [if_neg (by simpa using hne)]
  rw [List.append_nil, List.reverse_reverse]
  rfl

theorem pyWords_word (w : List Char) (hne : w ≠ [])
    (h : ∀ c ∈ w, isPySpace c = false) : pyWords w = [w] := by
  rw [pyWords, ← List.append_nil w, pyWordsAux_word w [] [] h]
  rw [pyWordsAux, if_neg (by simpa using hne), List.append_nil, List.reverse_reverse]
  simp

theorem pyWordsAux_nice (l : List Char) :
    ∀ acc : List Char, (∀ c ∈ acc, isPySpace c = false) →
    ∀ w ∈ pyWordsAux l acc, w ≠ [] ∧ ∀ c ∈ w, isPySpace c = false := by
  induction l with
  | nil =>
    intro acc hacc w hw
    rw [pyWordsAux] at hw
    by_cases ha : acc = []
    · rw [if_pos ha] at hw
      simp at hw
    · rw [if_neg ha] at hw
      rw [List.mem_singleton] at hw
      subst hw
      exact ⟨by simpa using ha, fun c hc => hacc c (List.mem_reverse.mp hc)⟩
  | cons c l ih =>
    intro acc hacc w hw
    rw [pyWordsAux] at hw
    by_cases hc : isPySpace c = true
    · rw [if_pos hc] at hw
      by_cases ha : acc = []
      · rw [if_pos ha] at hw
        exact ih [] (by simp) w hw
      · rw [if_neg ha] at hw
        rcases List.mem_cons.mp hw with hw | hw
        · subst hw
          exact ⟨by simpa using ha, fun d hd => hacc d (List.mem_reverse.mp hd)⟩
        · exact ih [] (by simp) w hw
    · rw [if_neg hc] at hw
      refine ih (c :: acc) ?_ w hw
      intro d hd
      rcases List.mem_cons.mp hd with hd | hd
      · subst hd; simpa using hc
      · exact hacc d hd

theorem pyWords_nice (l : List Char) :
    ∀ w ∈ pyWords l, w ≠ [] ∧ ∀ c ∈ w, isPySpace c = false :=
  pyWordsAux_nice l [] (by simp)

theorem pyWords_joinWords :
    ∀ ws : List (List Char),
    (∀ w ∈ ws, w ≠ [] ∧ ∀ c ∈ w, isPySpace c = false) →
    pyWords (joinWords ws) = ws := by
  intro ws
  induction ws with
  | nil => intro _; rfl
  | cons w ws ih =>
    intro h
    rcases ws with _ | ⟨w2, ws2⟩
    · rw [joinWords]
      exact pyWords_word w (h w (List.mem_cons_self w [])).1
        (h w (List.mem_cons_self w [])).2
    · rw [joinWords, pyWords_word_append w _ (h w (List.mem_cons_self w _)).1
        (h w (List.mem_cons_self w _)).2]
      rw [ih (fun w3 hw3 => h w3 (List.mem_cons_of_mem w hw3))]

theorem collapseWs_idem (l : List Char) :
    collapseWs (collapseWs l) = collapseWs l := by
  rw [collapseWs, collapseWs, pyWords_joinWords (pyWords l) (pyWords_nice l)]

theorem pyWordsAux_chars (l : List Char) :
    ∀ acc w, w ∈ pyWordsAux l acc → ∀ c ∈ w, c ∈ l ∨ c ∈ acc := by
  induction l with
  | nil =>
    intro acc w hw c hc
    rw [pyWordsAux] at hw
    by_cases ha : acc = []
    · rw [if_pos ha] at hw
      simp at hw
    · rw [if_neg ha] at hw
      rw [List.mem_singleton] at hw
      subst hw
      exact Or.inr (List.mem_reverse.mp hc)
  | cons d l ih =>
    intro acc w hw c hc
    rw [pyWordsAux] at hw
    by_cases hd : isPySpace d = true
    · rw [if_pos hd] at hw
      by_cases ha : acc = []
      · rw [if_pos ha] at hw
        rcases ih [] w hw c hc with h | h
        · exact Or.inl (List.mem_cons_of_mem d h)
        · simp at h
      · rw [if_neg ha] at hw
        rcases List.mem_cons.mp hw with hw | hw
        · subst hw
          exact Or.inr (List.mem_reverse.mp hc)
        · rcases ih [] w hw c hc with h | h
          · exact Or.inl (List.mem_cons_of_mem d h)
          · simp at h
    · rw [if_neg hd] at hw
      rcases ih (d :: acc) w hw c hc with h | h
      · exact Or.inl (List.mem_cons_of_mem d h)
      · rcases List.mem_cons.mp h with h | h
        · subst h
          exact Or.inl (List.mem_cons_self _ _)
        · exact Or.inr h

theorem mem_joinWords : ∀ (ws : List (List Char)) (c : Char),
    c ∈ joinWords ws → c = ' ' ∨ ∃ w ∈ ws, c ∈ w := by
  intro ws
  induction ws with
  | nil => intro c hc; simp [joinWords] at hc
  | cons w ws ih =>
    intro c hc
    rcases ws with _ | ⟨w2, ws2⟩
    · exact Or.inr ⟨w, List.mem_cons_self w [], hc⟩
    · rw [joinWords] at hc
      rcases List.mem_append.mp hc with hc | hc
      · exact Or.inr ⟨w, List.mem_cons_self w _, hc⟩
      · rcases List.mem_cons.mp hc with hc | hc
        · exact Or.inl hc
        · rcases ih c hc with h | ⟨u, hu, hcu⟩
          · exact Or.inl h
          · exact Or.inr ⟨u, List.mem_cons_of_mem w hu, hcu⟩

theorem mem_stripSpecials_keep (l : List Char) (c : Char)
    (h : c ∈ stripSpecials l) : keepChar c = true := by
  rw [stripSpecials] at h
  obtain ⟨a, _, ha⟩ := List.mem_map.mp h
  by_cases hk : keepChar a = true
  · rw [if_pos hk] at ha
    subst ha
    exact hk
  · rw [if_neg hk] at ha
    subst ha
    decide

theorem stripSpecials_id_of (l : List Char)
    (h : ∀ c ∈ l, keepChar c = true) : stripSpecials l = l := by
  induction l with
  | nil => rfl
  | cons c l ih =>
    rw [stripSpecials, List.map_cons, if_pos (h c (List.mem_cons_self c l))]
    rw [show (List.map (fun c => if keepChar c then c else ' ') l) =
      stripSpecials l from rfl]
    rw [ih (fun d hd => h d (List.mem_cons_of_mem c hd))]

theorem joinWords_ne_nil : ∀ ws : List (List Char),
    (∀ w ∈ ws, w ≠ []) → ws ≠ [] → joinWords ws ≠ [] := by
  intro ws h hne
  rcases ws with _ | ⟨w, ws⟩
  · exact absurd rfl hne
  · rcases ws with _ | ⟨w2, ws2⟩
    · exact h w (List.mem_cons_self w [])
    · rw [joinWords]
      simp

theorem joinWords_head (ws : List (List Char))
    (h : ∀ w ∈ ws, w ≠ [] ∧ ∀ c ∈ w, isPySpace c = false) :
    ∀ c, (joinWords ws).head? = some c → isPySpace c = false := by
  intro c hc
  rcases ws with _ | ⟨w, ws⟩
  · cases hc
  · have hw := h w (List.mem_cons_self w ws)
    rcases hw1 : w with _ | ⟨x, w'⟩
    · exact absurd hw1 hw.1
    · rcases ws with _ | ⟨w2, ws2⟩
      · rw [joinWords, hw1] at hc
        cases hc
        exact hw.2 c (by rw [hw1]; exact List.mem_cons_self c w')
      · rw [joinWords, hw1, List.cons_append] at hc
        cases hc
        exact hw.2 c (by rw [hw1]; exact List.mem_cons_self c w')

theorem joinWords_getLast : ∀ ws : List (List Char),
    (∀ w ∈ ws, w ≠ [] ∧ ∀ c ∈ w, isPySpace c = false) →
    ∀ c, (joinWords ws).getLast? = some c → isPySpace c = false := by
  intro ws
  induction ws with
  | nil => intro _ c hc; cases hc
  | cons w ws ih =>
    intro h c hc
    rcases ws with _ | ⟨w2, ws2⟩
    · exact (h w (List.mem_cons_self w [])).2 c (getLast?_mem_own w c hc)
    · rw [joinWords, List.getLast?_append] at hc
      have hJne : joinWords (w2 :: ws2) ≠ [] :=
        joinWords_ne_nil _ (fun u hu => (h u (List.mem_cons_of_mem w hu)).1) (by simp)
      rcases hJ : joinWords (w2 :: ws2) with _ | ⟨j, J2⟩
      · exact absurd hJ hJne
      · rw [hJ, List.getLast?_cons_cons] at hc
        obtain ⟨cj, hcj⟩ := Option.isSome_iff_exists.mp
          (List.getLast?_isSome.mpr (by simp : (j : Char) :: J2 ≠ []))
        rw [hcj] at hc
        have hx : some cj = some c := hc
        cases hx
        apply ih (fun u hu => h u (List.mem_cons_of_mem w hu)) c
        rw [hJ]
        exact hcj

theorem pyStrip_eq_self (l : List Char)
    (h1 : ∀ c, l.head? = some c → isPySpace c = false)
    (h2 : ∀ c, l.getLast? = some c → isPySpace c = false) : pyStrip l = l := by
  rw [pyStrip]
  have hd : l.dropWhile isPySpace = l := by
    rcases l with _ | ⟨x, l'⟩
    · rfl
    · rw [List.dropWhile_cons, if_neg (by rw [h1 x rfl]; simp)]
  rw [hd]
  have hr : l.reverse.dropWhile isPySpace = l.reverse := by
    rcases hrev : l.reverse with _ | ⟨y, r'⟩
    · rfl
    · have hy : l.getLast? = some y := by
        rw [← List.head?_reverse, hrev]
        rfl
      rw [List.dropWhile_cons, if_neg (by rw [h2 y hy]; simp)]
  rw [hr, List.reverse_reverse]

theorem pyStrip_collapseWs (l : List Char) :
    pyStrip (collapseWs l) = collapseWs l :=
  pyStrip_eq_self _ (joinWords_head _ (pyWords_nice l))
    (joinWords_getLast _ (pyWords_nice l))

theorem clean_org_name_chars (s : List Char) :
    ∀ c ∈ clean_org_name s, keepChar c = true := by
  intro c hc
  rcases mem_joinWords (pyWords (stripSpecials (reSubSuffix (pyStrip s)))) c hc
    with h | ⟨w, hw, hcw⟩
  · subst h; decide
  · rcases pyWordsAux_chars _ [] w hw c hcw with h | h
    · exact mem_stripSpecials_keep _ c h
    · simp at h

/-- C4 counterexample: the name normalizer is not idempotent — cleaning
"Acme Services LLC" strips only the final token and yields "Acme Services",
and cleaning that again strips the newly exposed trailing "Services". -/
theorem c4_counterexample :
    clean_org_name "Acme Services LLC".toList = "Acme Services".toList ∧
    clean_org_name (clean_org_name "Acme Services LLC".toList) = "Acme".toList ∧
    "Acme".toList ≠ "Acme Services".toList := by
  exact ⟨by decide, by decide, by decide⟩

/-- C4 amended: the normalizer is idempotent exactly on the inputs whose
normalized form is left unchanged by the trailing-suffix substitution; in
general a second application can strip one further trailing legal-suffix
token (the other three phases — strip, special-character replacement and
whitespace collapsing — are always no-ops on normalized output). -/
theorem c4_idempotent_unless_suffix (s : List Char)
    (h : reSubSuffix (clean_org_name s) = clean_org_name s) :
    clean_org_name (clean_org_name s) = clean_org_name s := by
  have h2 : pyStrip (clean_org_name s) = clean_org_name s :=
    pyStrip_collapseWs (stripSpecials (reSubSuffix (pyStrip s)))
  show collapseWs (stripSpecials (reSubSuffix (pyStrip (clean_org_name s)))) =
    clean_org_name s
  rw [h2, h, stripSpecials_id_of _ (clean_org_name_chars s)]
  exact collapseWs_idem (stripSpecials (reSubSuffix (pyStrip s)))

/-- Witness for `c4_idempotent_unless_suffix` at a concrete input. -/
theorem c4_witness :
    reSubSuffix (clean_org_name "Acme Corp.".toList) = clean_org_name "Acme Corp.".toList ∧
    clean_org_name (clean_org_name "Acme Corp.".toList) = clean_org_name "Acme Corp.".toList :=
  ⟨by decide, c4_idempotent_unless_suffix "Acme Corp.".toList (by decide)⟩

theorem dictGet_dictSet_isSome {V : Type} (d : List (List Char × V))
    (k k2 : List Char) (v : V) (h : (dictGet d k2).isSome = true) :
    (dictGet (dictSet d k v) k2).isSome = true := by
  induction d with
  | nil => rw [dictGet] at h; cases h
  | cons kv rest ih =>
    rcases kv with ⟨k1, v1⟩
    rw [dictGet] at h
    rw [dictSet]
    by_cases h1 : k1 = k
    · rw [if_pos h1, dictGet]
      by_cases h2 : k = k2
      · rw [if_pos h2]; rfl
      · rw [if_neg h2]
        rw [if_neg (by rw [h1]; exact h2)] at h
        exact h
    · rw [if_neg h1, dictGet]
      by_cases h2 : k1 = k2
      · rw [if_pos h2]; rfl
      · rw [if_neg h2]
        rw [if_neg h2] at h
        exact ih h

theorem dictGet_dictUpdate_isSome {V : Type} (q : List (List Char × V)) :
    ∀ (d : List (List Char × V)) (k : List Char),
    (dictGet d k).isSome = true → (dictGet (dictUpdate d q) k).isSome = true := by
  induction q with
  | nil => intro d k h; exact h
  | cons kv q ih =>
    intro d k h
    exact ih (dictSet d kv.1 kv.2) k (dictGet_dictSet_isSome d kv.1 k kv.2 h)

/-- Every place returned by `search_place` carries a `place_id` field (the
source accesses `place['place_id']` before any return of the place, and the
details merge can only overwrite it, not remove it); hence the `KeyError`
branch modelled in `processRow` is unreachable. -/
theorem search_place_has_place_id (api : ApiEnv) (org loc turl : List Char) (p : Place)
    (ht : (search_place api org loc turl).1 = some p) :
    (dictGet p.fields "place_id".toList).isSome = true := by
  unfold search_place at ht
  dsimp only at ht
  rcases hs : api.searchResp (buildQuery org loc) with e | resp <;>
    (rw [hs] at ht; try dsimp only at ht)
  · cases ht
  by_cases hc : resp.code = 200
  case neg => rw [if_neg hc] at ht; cases ht
  rw [if_pos hc] at ht
  rcases hj : resp.js with e | r <;> (rw [hj] at ht; try dsimp only at ht)
  · cases ht
  by_cases hst : r.status = some "OK".toList
  case neg => rw [if_neg hst] at ht; cases ht
  rw [if_pos hst] at ht
  rcases hres : r.results with _ | ⟨place, rest⟩ <;>
    (rw [hres] at ht; try dsimp only at ht)
  · cases ht
  rcases hpid : dictGet place.fields "place_id".toList with _ | pid <;>
    (rw [hpid] at ht; try dsimp only at ht)
  · cases ht
  rcases hd : api.detailsResp pid with e | dresp <;>
    (rw [hd] at ht; try dsimp only at ht)
  · cases ht
  by_cases hdc : dresp.code = 200
  case neg =>
    rw [if_neg hdc] at ht
    dsimp only at ht
    cases ht
    rw [hpid]; rfl
  rw [if_pos hdc] at ht
  rcases hdj : dresp.js with e | dr <;> (rw [hdj] at ht; try dsimp only at ht)
  · cases ht
  by_cases hds : dr.status = some "OK".toList
  case neg =>
    rw [if_neg hds] at ht
    dsimp only at ht
    cases ht
    rw [hpid]; rfl
  rw [if_pos hds] at ht
  dsimp only at ht
  cases ht
  exact dictGet_dictUpdate_isSome dr.result.fields place.fields "place_id".toList
    (by rw [hpid]; rfl)
